import Mathlib

/-!
Verification development for the `hast` markup formatter.

The parser (src/ast/*.rs) and formatting policy (src/format.rs) are embedded
at the character level: Rust `&str` slices become `List Char`, and the nom
`IResult` type becomes `PResult` below, with an explicit constructor for an
exhausted recursion bound (`more`) and one for a Rust panic (`panicked`).
The document algebra and renderer live in the external `pretty` crate, whose
source is not part of this repository; they are modelled from the spec
(section 4.5), as is the shared lexical predicate module `ast/util.rs`,
which is not under src/.
-/

namespace Hast

/-- Character strings, at the granularity the parser works with. -/
abbrev Str := List Char

/-- Result of a nom-style parser: `ok remaining value`, a recoverable parse
failure, an exhausted fuel bound (an artifact of the embedding; the Rust
code recurses without a bound), or a Rust panic. -/
inductive PResult (α : Type) where
  | ok (rest : Str) (val : α)
  | fail
  | more
  | panicked
  deriving Repr

/-- Whether a parse result is a success. -/
def PResult.isOk : PResult α → Bool
  | .ok _ _ => true
  | _ => false

/-- Sequencing of parsers, threading the remaining input. -/
def PResult.bind : PResult α → (Str → α → PResult β) → PResult β
  | .ok rest val, f => f rest val
  | .fail, _ => .fail
  | .more, _ => .more
  | .panicked, _ => .panicked

/-- nom `alt` over two alternatives: the second runs only if the first
returns a recoverable failure. -/
def altP (p q : Str → PResult α) : Str → PResult α := fun s =>
  match p s with
  | .fail => q s
  | r => r

/-- Modelled from the spec: the repository module `ast/util.rs` (shared
lexical predicates) is not under src/. ASCII whitespace as in Rust
`char::is_ascii_whitespace`: space, tab, newline, form feed, carriage
return. -/
def is_ascii_whitespace (c : Char) : Bool :=
  c = ' ' || c = '\t' || c = '\n' || c = '\x0c' || c = '\r'

/-- Unicode `White_Space`, as used by Rust `str::trim` / `trim_start` /
`trim_end` / `split_whitespace` (via `char::is_whitespace`). -/
def is_unicode_whitespace (c : Char) : Bool :=
  c = ' ' || c = '\t' || c = '\n' || c = '\x0b' || c = '\x0c' || c = '\r'
  || c = '\u0085' || c = '\u00A0' || c = '\u1680'
  || ('\u2000' ≤ c && c ≤ '\u200A')
  || c = '\u2028' || c = '\u2029' || c = '\u202F' || c = '\u205F' || c = '\u3000'

/-- Rust `str::trim_start`. -/
def trim_start (s : Str) : Str := s.dropWhile is_unicode_whitespace

/-- Rust `str::trim_end`. -/
def trim_end (s : Str) : Str := (s.reverse.dropWhile is_unicode_whitespace).reverse

/-- Rust `str::trim`. -/
def trim (s : Str) : Str := trim_end (trim_start s)

/-- nom `char(c)`. -/
def charP (c : Char) : Str → PResult Unit
  | [] => .fail
  | x :: xs => if x = c then .ok xs () else .fail

/-- nom `take_while(p)`: always succeeds, consuming the maximal prefix
satisfying `p`. -/
def take_whileP (p : Char → Bool) (s : Str) : PResult Str :=
  .ok (s.dropWhile p) (s.takeWhile p)

/-- nom `take_while1(p)`: like `take_while` but fails on an empty match. -/
def take_while1P (p : Char → Bool) (s : Str) : PResult Str :=
  match s with
  | [] => .fail
  | c :: _ => if p c then .ok (s.dropWhile p) (s.takeWhile p) else .fail

/-- nom `tag(t)`: matches the literal `t`. -/
def tagP (t : Str) (s : Str) : PResult Str :=
  if t.isPrefixOf s then .ok (s.drop t.length) t else .fail

/-- Rust `char::to_ascii_lowercase`, which nom `tag_no_case` folds with. -/
def asciiLower (c : Char) : Char :=
  if 'A' ≤ c ∧ c ≤ 'Z' then Char.ofNat (c.toNat + 32) else c

/-- nom `tag_no_case(t)`: matches `t` up to ASCII case. -/
def tagNoCaseP (t : Str) (s : Str) : PResult Str :=
  let pre := s.take t.length
  if pre.map asciiLower = t.map asciiLower then .ok (s.drop t.length) pre else .fail

/-- nom `take_until(pat)`: splits the input at the first occurrence of
`pat`, or `none` when `pat` does not occur. The second component starts
with `pat`. -/
def take_until (pat : Str) : Str → Option (Str × Str)
  | [] => if pat.isPrefixOf ([] : Str) then some ([], []) else none
  | c :: rest =>
    if pat.isPrefixOf (c :: rest) then some ([], c :: rest)
    else
      match take_until pat rest with
      | some (pre, suf) => some (c :: pre, suf)
      | none => none

/-! ## AST (src/ast/mod.rs, comment.rs, doctype.rs, element/mod.rs) -/

/-- `struct Comment<'a>(pub &'a str)` from src/ast/comment.rs. -/
structure Comment where
  body : Str
  deriving Repr

/-- `struct Doctype { pub legacy: bool }` from src/ast/doctype.rs. -/
structure Doctype where
  legacy : Bool
  deriving Repr

mutual
/-- `enum Element<'a>` from src/ast/element/mod.rs. -/
inductive Element where
  | normal (name : Str) (attributes : List (Str × Option Str)) (content : List Node)
  | void (name : Str) (attributes : List (Str × Option Str))
  deriving Repr
/-- `enum Node<'a>` from src/ast/mod.rs. -/
inductive Node where
  | comment (c : Comment)
  | doctype (d : Doctype)
  | element (e : Element)
  | text (t : Str)
  deriving Repr
end

/-- `matches!(node, Node::Text(_))` from src/format.rs line 135. -/
def Node.isText : Node → Bool
  | .text _ => true
  | _ => false

/-! ## Leaf parsers -/

/-- Body normalization of `Comment::parse` (src/ast/comment.rs lines 14-24).
Returns `none` when the Rust slice `&input[start..end]` would panic
(`start > end`, which happens when the trimmed content contains a newline
but the raw content holds only one newline). -/
def comment_body (input : Str) : Option Str :=
  let multiline := (trim input).contains '\n'
  if multiline then
    let start := (input.findIdx (· = '\n')) + 1
    let stop := input.length - 1 - (input.reverse.findIdx (· = '\n'))
    if start ≤ stop then some ((input.take stop).drop start) else none
  else some (trim input)

/-- `Comment::parse` (src/ast/comment.rs): `<!--`, content up to the first
`-->`, then `-->`. -/
def Comment.parse (s : Str) : PResult Comment :=
  match tagP "<!--".toList s with
  | .ok s1 _ =>
    match take_until "-->".toList s1 with
    | some (raw, suf) =>
      match comment_body raw with
      | some body => .ok (suf.drop 3) ⟨body⟩
      | none => .panicked
    | none => .fail
  | _ => .fail

/-- `parse_legacy_string` (src/ast/doctype.rs): `SYSTEM`, whitespace, then
`about:legacy-compat` in double or single quotes. -/
def parse_legacy_string (s : Str) : PResult Unit :=
  (tagNoCaseP "SYSTEM".toList s).bind fun s1 _ =>
  (take_while1P is_ascii_whitespace s1).bind fun s2 _ =>
  altP
    (fun u =>
      (charP '"' u).bind fun u1 _ =>
      (tagP "about:legacy-compat".toList u1).bind fun u2 _ =>
      (charP '"' u2).bind fun u3 _ => .ok u3 ())
    (fun u =>
      (charP '\'' u).bind fun u1 _ =>
      (tagP "about:legacy-compat".toList u1).bind fun u2 _ =>
      (charP '\'' u2).bind fun u3 _ => .ok u3 ())
    s2

/-- `Doctype::parse` (src/ast/doctype.rs). -/
def Doctype.parse (s : Str) : PResult Doctype :=
  (charP '<' s).bind fun s1 _ =>
  (charP '!' s1).bind fun s2 _ =>
  (tagNoCaseP "DOCTYPE".toList s2).bind fun s3 _ =>
  (take_while1P is_ascii_whitespace s3).bind fun s4 _ =>
  (tagNoCaseP "html".toList s4).bind fun s5 _ =>
  let r :=
    match (take_while1P is_ascii_whitespace s5).bind (fun s6 _ => parse_legacy_string s6) with
    | .ok s6 _ => (s6, true)
    | _ => (s5, false)
  (charP '>' r.1).bind fun s7 _ => .ok s7 ⟨r.2⟩

/-- Forbidden attribute-name characters (src/ast/element/util.rs lines
14-57), written over code points exactly as the source lists them. -/
def forbidden_attribute_name_char (c : Char) : Bool :=
  let n := c.toNat
  (0x007F ≤ n && n ≤ 0x009F)
  || n = 0x0020 || n = 0x0022 || n = 0x0027 || n = 0x002F || n = 0x003E || n = 0x003D
  || (0xFDD0 ≤ n && n ≤ 0xFDEF)
  || n = 0xFFFE || n = 0xFFFF
  || n = 0x1FFFE || n = 0x1FFFF
  || n = 0x2FFFE || n = 0x2FFFF
  || n = 0x3FFFE || n = 0x3FFFF
  || n = 0x4FFFE || n = 0x4FFFF
  || n = 0x5FFFE || n = 0x5FFFF
  || n = 0x6FFFE || n = 0x6FFFF
  || n = 0x7FFFE || n = 0x7FFFF
  || n = 0x8FFFE || n = 0x8FFFF
  || n = 0x9FFFE || n = 0x9FFFF
  || n = 0xAFFFE || n = 0xAFFFF
  || n = 0xBFFFE || n = 0xBFFFF
  || n = 0xCFFFE || n = 0xCFFFF
  || n = 0xDFFFE || n = 0xDFFFF
  || n = 0xEFFFE || n = 0xEFFFF
  || n = 0xFFFFE || n = 0xFFFFF
  || n = 0x10FFFE || n = 0x10FFFF

/-- `parse_attribute_name` (src/ast/element/util.rs). -/
def parse_attribute_name (s : Str) : PResult Str :=
  take_while1P (fun c => !forbidden_attribute_name_char c) s

/-- Quoted attribute value: `delimited(char(q), take_until(q), char(q))`. -/
def quoted_value (q : Char) (u : Str) : PResult Str :=
  (charP q u).bind fun u1 _ =>
  match take_until [q] u1 with
  | some (pre, suf) => (charP q suf).bind fun u2 _ => .ok u2 pre
  | none => .fail

/-- Unquoted attribute value (src/ast/element/util.rs lines 74-80). -/
def unquoted_value (u : Str) : PResult Str :=
  take_while1P
    (fun c =>
      !is_ascii_whitespace c
      && !(c.toNat = 0x0022 || c.toNat = 0x0027
           || (0x003C ≤ c.toNat && c.toNat ≤ 0x003E) || c.toNat = 0x0060))
    u

/-- `parse_attribute` (src/ast/element/util.rs): a name, optionally followed
by `=` (with surrounding whitespace) and a value. -/
def parse_attribute (s : Str) : PResult (Str × Option Str) :=
  (parse_attribute_name s).bind fun s1 name =>
  match ((take_whileP is_ascii_whitespace s1).bind fun s2 _ =>
         (charP '=' s2).bind fun s3 _ =>
         (take_whileP is_ascii_whitespace s3).bind fun s4 _ =>
         altP (altP (quoted_value '"') (quoted_value '\'')) unquoted_value s4) with
  | .ok s5 v => .ok s5 (name, some v)
  | _ => .ok s1 (name, none)

/-- `parse_tag_name` (src/ast/element/util.rs): `take_till` whitespace,
`/` or `>`; never fails. -/
def parse_tag_name (s : Str) : PResult Str :=
  take_whileP (fun c => !(is_ascii_whitespace c || c = '/' || c = '>')) s

/-- `Element::parse_end_tag` (src/ast/element/mod.rs lines 32-39). -/
def Element.parse_end_tag (s : Str) : PResult Str :=
  (charP '<' s).bind fun s1 _ =>
  (charP '/' s1).bind fun s2 _ =>
  (parse_tag_name s2).bind fun s3 name =>
  (take_whileP is_ascii_whitespace s3).bind fun s4 _ =>
  (charP '>' s4).bind fun s5 _ => .ok s5 name

/-- The fixed void tag names of src/ast/element/mod.rs lines 56-72. -/
def void_names : List Str :=
  ["area", "base", "br", "col", "embed", "hr", "img", "input", "link", "meta",
   "param", "source", "track", "wbr"].map String.toList

/-- nom `many0(preceded(take_while1(whitespace), parse_attribute))`. The
fuel is an embedding artifact; each iteration consumes at least one
character, so the caller passes `length + 1`. A zero-consumption success
makes nom's `many0` fail, mirrored by the length guard. -/
def many0_attributes : Nat → Str → PResult (List (Str × Option Str))
  | 0, _ => .more
  | fuel+1, s =>
    match ((take_while1P is_ascii_whitespace s).bind fun s1 _ => parse_attribute s1) with
    | .ok s1 a =>
      if s1.length = s.length then .fail
      else (many0_attributes fuel s1).bind fun s2 as => .ok s2 (a :: as)
    | .more => .more
    | .panicked => .panicked
    | .fail => .ok s []

/-- Rust `str::find('<')` over the tail of the scan, as `Option`. -/
def find_lt (s : Str) : Option Nat := s.findIdx? (· = '<')

/-! ## Recursive parsers (src/ast/mod.rs and Element::parse)

`Element::parse`, `Node::parse_non_text`, `Node::parse_many` and the scan
loop of `Node::parse_text` are mutually recursive; the Nat fuel bounds the
recursion depth and every recursive call decrements it. -/

mutual
/-- `Element::parse` (src/ast/element/mod.rs lines 41-93). -/
def Element.parse : Nat → Str → PResult Element
  | 0, _ => .more
  | fuel+1, s =>
    (charP '<' s).bind fun s1 _ =>
    (parse_tag_name s1).bind fun s2 name =>
    (many0_attributes (s2.length + 1) s2).bind fun s3 attributes =>
    (take_whileP is_ascii_whitespace s3).bind fun s4 _ =>
    let solidus := match charP '/' s4 with | .ok r _ => some r | _ => none
    let self_closing := solidus.isSome
    (charP '>' (solidus.getD s4)).bind fun s6 _ =>
    if void_names.contains (name.map asciiLower) || self_closing then
      .ok s6 (Element.void name attributes)
    else
      (Node.parse_many fuel s6).bind fun s7 content =>
      (Element.parse_end_tag s7).bind fun s8 end_name =>
      if name = end_name then .ok s8 (Element.normal name attributes content)
      else .fail

/-- `Node::parse_non_text` (src/ast/mod.rs lines 76-83): comment, doctype,
then element. -/
def Node.parse_non_text : Nat → Str → PResult Node
  | 0, _ => .more
  | fuel+1, s =>
    match Comment.parse s with
    | .ok r c => .ok r (.comment c)
    | .panicked => .panicked
    | .more => .more
    | .fail =>
      match Doctype.parse s with
      | .ok r d => .ok r (.doctype d)
      | .panicked => .panicked
      | .more => .more
      | .fail =>
        match Element.parse fuel s with
        | .ok r e => .ok r (.element e)
        | .panicked => .panicked
        | .more => .more
        | .fail => .fail

/-- The scan loop of `Node::parse_text` (src/ast/mod.rs lines 51-73):
advance to the next `<`; stop before an end tag or a successful non-text
parse, else step one character past the `<` and continue. -/
def Node.parse_text_go : Nat → Str → Nat → PResult (Node × Option Node)
  | 0, _, _ => .more
  | fuel+1, s, index =>
    match find_lt (s.drop index) with
    | some delta =>
      let idx := index + delta
      if (Element.parse_end_tag (s.drop idx)).isOk then
        .ok (s.drop idx) (Node.text (trim_end (s.take idx)), none)
      else
        match Node.parse_non_text fuel (s.drop idx) with
        | .ok remaining next => .ok remaining (Node.text (trim_end (s.take idx)), some next)
        | .panicked => .panicked
        | .more => .more
        | .fail => Node.parse_text_go fuel s (idx + 1)
    | none => .ok [] (Node.text (trim_end s), none)

/-- `Node::parse_many` (src/ast/mod.rs lines 86-114), entry point. -/
def Node.parse_many : Nat → Str → PResult (List Node)
  | 0, _ => .more
  | fuel+1, input => Node.parse_many_go fuel (trim_start input) []

/-- The loop of `Node::parse_many`: stop on an end tag or empty input, try
a non-text node, else fall back to text. The text fallback inlines
`Node::parse_text` (its standalone form is `Node.parse_text` below). -/
def Node.parse_many_go : Nat → Str → List Node → PResult (List Node)
  | 0, _, _ => .more
  | fuel+1, remaining, buffer =>
    if (Element.parse_end_tag remaining).isOk then .ok remaining buffer
    else if remaining.isEmpty then .ok [] buffer
    else
      match Node.parse_non_text fuel (trim_start remaining) with
      | .ok rest node => Node.parse_many_go fuel (trim_start rest) (buffer ++ [node])
      | .panicked => .panicked
      | .more => .more
      | .fail =>
        let t := trim_start remaining
        if t.isEmpty then .fail
        else
          match Node.parse_text_go fuel t 0 with
          | .ok rest (node, next) =>
            Node.parse_many_go fuel (trim_start rest) (buffer ++ [node] ++ next.toList)
          | .panicked => .panicked
          | .more => .more
          | .fail => .fail
end

/-- `Node::parse_text` (src/ast/mod.rs lines 42-74): trim, fail on empty,
then scan. `Node.parse_many_go` inlines this body at its only call site. -/
def Node.parse_text (fuel : Nat) (input : Str) : PResult (Node × Option Node) :=
  let input := trim_start input
  if input.isEmpty then .fail else Node.parse_text_go fuel input 0

/-! ## Document algebra and renderer

Modelled from the spec: the document algebra and the width-aware renderer
are provided by the external `pretty` crate, whose source is not part of
this repository; the primitives and the flat/broken decision below follow
spec section 4.5 (text, line, line0, hardline, nest, group, concatenation,
and a fits-check that looks past a group into trailing siblings up to the
next forced break, refusing flat layout for a group containing a
hardline). -/

inductive Doc where
  | nil
  | text (s : Str)
  | line
  | line0
  | hardline
  | nest (n : Nat) (d : Doc)
  | group (d : Doc)
  | app (a b : Doc)
  deriving Repr

/-- Layout mode of a pending document: flat or broken. -/
inductive Mode where
  | flat
  | brk
  deriving Repr

/-- Size of a document tree, used to bound the renderer recursion. -/
def sizeD : Doc → Nat
  | .nil | .text _ | .line | .line0 | .hardline => 1
  | .nest _ d => sizeD d + 1
  | .group d => sizeD d + 1
  | .app a b => sizeD a + sizeD b + 1

/-- Modelled from the spec: the fits-check of section 4.5. Scans the
pending items (the candidate group flattened, then the trailing siblings in
their own modes) until the line is over width (false), a broken separator
ends the line (true), or a hardline is met in flat mode (false: a group
containing a hardline never lays out flat). -/
def fits : Nat → Int → List (Nat × Mode × Doc) → Bool
  | 0, _, _ => false
  | fuel+1, rem, items =>
    if rem < 0 then false
    else
      match items with
      | [] => true
      | (i, m, d) :: z =>
        match d with
        | .nil => fits fuel rem z
        | .text s => fits fuel (rem - s.length) z
        | .line =>
          match m with
          | .flat => fits fuel (rem - 1) z
          | .brk => true
        | .line0 =>
          match m with
          | .flat => fits fuel rem z
          | .brk => true
        | .hardline =>
          match m with
          | .flat => false
          | .brk => true
        | .nest j d => fits fuel rem ((i + j, m, d) :: z)
        | .app a b => fits fuel rem ((i, m, a) :: (i, m, b) :: z)
        | .group d => fits fuel rem ((i, .flat, d) :: z)

/-- Modelled from the spec: the width-aware renderer of section 4.5,
carrying the current column and a stack of (indentation, mode, document)
items. A group in broken mode lays out flat exactly when the fits-check
allows it. -/
def best (w : Nat) : Nat → Nat → List (Nat × Mode × Doc) → Str
  | 0, _, _ => []
  | fuel+1, col, items =>
    match items with
    | [] => []
    | (i, m, d) :: z =>
      match d with
      | .nil => best w fuel col z
      | .text s => s ++ best w fuel (col + s.length) z
      | .line =>
        match m with
        | .flat => ' ' :: best w fuel (col + 1) z
        | .brk => '\n' :: (List.replicate i ' ' ++ best w fuel i z)
      | .line0 =>
        match m with
        | .flat => best w fuel col z
        | .brk => '\n' :: (List.replicate i ' ' ++ best w fuel i z)
      | .hardline => '\n' :: (List.replicate i ' ' ++ best w fuel i z)
      | .nest j d => best w fuel col ((i + j, m, d) :: z)
      | .app a b => best w fuel col ((i, m, a) :: (i, m, b) :: z)
      | .group d =>
        match m with
        | .flat => best w fuel col ((i, .flat, d) :: z)
        | .brk =>
          if fits (fuel + 1) ((w : Int) - (col : Int)) ((i, .flat, d) :: z) then
            best w fuel col ((i, .flat, d) :: z)
          else
            best w fuel col ((i, .brk, d) :: z)

/-- Render a document at the given width, starting in broken mode at
column 0. The fuel suffices: every step strictly decreases the summed
size of the pending items. -/
def render (width : Nat) (d : Doc) : Str :=
  best width (sizeD d + 4) 0 [(0, Mode.brk, d)]

/-! ## Formatting policy (src/format.rs) -/

/-- `struct Configuration` from src/configuration.rs (`line_width: u32`,
`indent_width: u8`). -/
structure Configuration where
  line_width : Nat
  indent_width : Nat

/-- Rust `str::lines`: split on newline, dropping a final empty segment
and a trailing carriage return on each line. -/
def rust_lines_go : Str → Str → List Str
  | [], acc => [acc.reverse]
  | c :: r, acc => if c = '\n' then acc.reverse :: rust_lines_go r [] else rust_lines_go r (c :: acc)

/-- Rust `str::lines` on a whole string. -/
def rust_lines (s : Str) : List Str :=
  if s.isEmpty then []
  else
    let parts := rust_lines_go s []
    let parts := if parts.getLast? = some [] then parts.dropLast else parts
    parts.map fun l => if l.getLast? = some '\r' then l.dropLast else l

/-- Rust `str::split_whitespace` (used by the reflow primitive): maximal
runs of non-whitespace characters. -/
def split_whitespace_go : Str → Str → List Str
  | [], acc => if acc.isEmpty then [] else [acc.reverse]
  | c :: r, acc =>
    if is_unicode_whitespace c then
      if acc.isEmpty then split_whitespace_go r [] else acc.reverse :: split_whitespace_go r []
    else split_whitespace_go r (c :: acc)

/-- Rust `str::split_whitespace` on a whole string. -/
def split_whitespace (s : Str) : List Str := split_whitespace_go s []

/-- Modelled from the spec: the reflow primitive of section 4.5 joins the
whitespace-separated words with individually grouped `line` separators, so
consecutive words stay space-separated while they fit and wrap otherwise. -/
def reflow (t : Str) : Doc :=
  match (split_whitespace t).map Doc.text with
  | [] => .nil
  | d :: ds => ds.foldl (fun a b => (a.app (Doc.group Doc.line)).app b) d

/-- `pretty_text` (src/format.rs lines 165-176). -/
def pretty_text (t : Str) : Doc :=
  if t.isEmpty then .nil else reflow t

/-- `pretty_doctype` (src/format.rs lines 83-92). -/
def pretty_doctype (d : Doctype) : Doc :=
  .text (if d.legacy then "<!DOCTYPE html SYSTEM \"about:legacy-compat\">".toList
         else "<!DOCTYPE html>".toList)

/-- `pretty_comment` (src/format.rs lines 48-81): each body line after a
`line` separator; single-line bodies are nested and closed by `line`,
multi-line bodies are unnested and closed by `hardline`; grouped. -/
def pretty_comment (config : Configuration) (c : Comment) : Doc :=
  if c.body.isEmpty then .text "<!---->".toList
  else
    let ls := rust_lines c.body
    let buffer := ls.foldl (fun b l => (b.app Doc.line).app (Doc.text l)) Doc.nil
    let buffer := if ls.length ≤ 1 then buffer.nest config.indent_width else buffer
    let buffer := if 2 ≤ ls.length then buffer.app Doc.hardline else buffer.app Doc.line
    Doc.group (((Doc.text "<!--".toList).app buffer).app (Doc.text "-->".toList))

mutual
/-- `pretty_node` (src/format.rs lines 30-46). -/
def pretty_node (config : Configuration) : Node → Doc
  | .comment c => pretty_comment config c
  | .doctype d => pretty_doctype d
  | .element e => pretty_element config e
  | .text t => pretty_text t

/-- `pretty_element` (src/format.rs lines 94-163): start tag with grouped,
nested attributes; void elements close with `/>`; normal elements lay out
children with `hardline` separators when the non-empty content has no text
node, else `line0`, grouped, then the end tag. -/
def pretty_element (config : Configuration) : Element → Doc
  | .void name attributes =>
    (pretty_start_tag config name attributes).app (Doc.text "/>".toList)
  | .normal name attributes content =>
    let force_multiline := !content.isEmpty && content.all fun node => !node.isText
    let buffer := (pretty_start_tag config name attributes).app (Doc.text ">".toList)
    let children := pretty_children config content
    let buffer :=
      match children with
      | [] => buffer
      | d :: ds =>
        let sep : Doc := if force_multiline then .hardline else .line0
        let nodes := (ds.map (sep.app ·)).foldl Doc.app (sep.app d)
        buffer.app (Doc.group ((nodes.nest config.indent_width).app Doc.line0))
    Doc.group ((buffer.app (Doc.text "</".toList)).app ((Doc.text name).app (Doc.text ">".toList)))

/-- The shared start-tag prefix of `pretty_element`: `<`, the name, then
the grouped, nested attribute list closed by `line0`. -/
def pretty_start_tag (config : Configuration) (name : Str) (attributes : List (Str × Option Str)) : Doc :=
  let buffer := (Doc.text "<".toList).app (Doc.text name)
  match attributes.map (fun p =>
      (Doc.line.app (Doc.text p.1)).app
        (match p.2 with
         | some v => (Doc.text "=".toList).app (((Doc.text ['"']).app (Doc.text v)).app (Doc.text ['"']))
         | none => Doc.nil)) with
  | [] => buffer
  | d :: ds =>
    buffer.app (Doc.group (((ds.foldl Doc.app d).nest config.indent_width).app Doc.line0))

/-- `pretty_node` mapped over an element's children. -/
def pretty_children (config : Configuration) : List Node → List Doc
  | [] => []
  | n :: ns => pretty_node config n :: pretty_children config ns
end

/-- The error channel of `format`: a top-level parse failure, an exhausted
fuel bound (embedding artifact), or a Rust panic. -/
inductive FormatError where
  | parseFailed
  | outOfFuel
  | panicked
  deriving Repr

/-- `format` (src/format.rs lines 12-28): parse the input, pretty-print
every node followed by `line0`, and render at the configured width. The
unconsumed remainder of `Node::parse_many` is dropped, as in the source. -/
def format (fuel : Nat) (config : Configuration) (input : Str) : Except FormatError Str :=
  match Node.parse_many fuel input with
  | .fail => .error .parseFailed
  | .more => .error .outOfFuel
  | .panicked => .error .panicked
  | .ok _ nodes =>
    let doc :=
      match nodes.map (fun node => (pretty_node config node).app Doc.line0) with
      | [] => Doc.nil
      | d :: ds => ds.foldl Doc.app d
    .ok (render config.line_width doc)

/-! ## Claims settled by concrete evaluation -/

/-- C1: formatting is not idempotent. The input below is the output of a
previous `format` call (so it is canonical up to the bug), yet formatting
it again indents the multiline comment body by two more columns: the
comment body lines are stored verbatim at parse time but rendered at the
current indentation, so every pass adds `indent_width` spaces. -/
theorem format_not_idempotent_on_nested_multiline_comment :
    format 99 ⟨80, 2⟩ "<div>\n  <!--\n  a\n  b\n  -->\n</div>\n".toList
      = .ok "<div>\n  <!--\n    a\n    b\n  -->\n</div>\n".toList
    ∧ format 99 ⟨80, 2⟩ "<div>\n  <!--\n    a\n    b\n  -->\n</div>\n".toList
      = .ok "<div>\n  <!--\n      a\n      b\n  -->\n</div>\n".toList
    ∧ "<div>\n  <!--\n      a\n      b\n  -->\n</div>\n".toList
      ≠ "<div>\n  <!--\n    a\n    b\n  -->\n</div>\n".toList := by
  refine ⟨by rfl, by rfl, by decide⟩

/-- C3: the end tag of a normal element must match the start tag
byte-for-byte, so differing case fails while identical case succeeds,
whereas classification as a void element lowercases the name first and is
therefore case-insensitive, and a trailing solidus makes any name void. -/
theorem end_tag_case_sensitive_void_case_insensitive :
    Element.parse 99 "<Foo>x</foo>".toList = .fail
    ∧ Element.parse 99 "<Foo>x</Foo>".toList
      = .ok [] (.normal "Foo".toList [] [.text "x".toList])
    ∧ Element.parse 99 "<BR>".toList = .ok [] (.void "BR".toList [])
    ∧ Element.parse 99 "<Input>".toList = .ok [] (.void "Input".toList [])
    ∧ Element.parse 99 "<Custom/>".toList = .ok [] (.void "Custom".toList []) := by
  refine ⟨by rfl, by rfl, by rfl, by rfl, by rfl⟩

/-- C5: a normal element whose non-empty content has no text node places
every child on its own line even though all children jointly fit within
the width, while an element containing a text node renders flat when it
fits and reflows the text at the width otherwise. -/
theorem pure_element_content_forced_multiline :
    format 99 ⟨80, 2⟩ "<a><b></b><c></c></a>".toList
      = .ok "<a>\n  <b></b>\n  <c></c>\n</a>\n".toList
    ∧ format 99 ⟨80, 2⟩ "<a>hi there</a>".toList = .ok "<a>hi there</a>\n".toList
    ∧ format 99 ⟨5, 2⟩ "<a>hi there</a>".toList
      = .ok "<a>\n  hi\n  there\n</a>\n".toList := by
  refine ⟨by rfl, by rfl, by rfl⟩

/-- C7 counterexample: format appends the top-level separator newline
after a doctype, so formatting the newline-free input
`<!DOCTYPE html>` does not reproduce it exactly. -/
theorem doctype_format_appends_newline :
    format 99 ⟨80, 2⟩ "<!DOCTYPE html>".toList = .ok "<!DOCTYPE html>\n".toList
    ∧ "<!DOCTYPE html>\n".toList ≠ "<!DOCTYPE html>".toList := by
  refine ⟨by rfl, by decide⟩

/-- C7 (amended): doctype parsing sets `legacy` exactly when the SYSTEM
legacy string (double- or single-quoted) is present, accepts the keywords
case-insensitively, fails on deviations from the grammar, and formatting
renders the fixed double-quoted literal followed by the top-level newline
separator, so a newline-terminated canonical doctype is unchanged. -/
theorem doctype_parse_and_format :
    Doctype.parse "<!DOCTYPE html>".toList = .ok [] ⟨false⟩
    ∧ Doctype.parse "<!DOCTYPE html SYSTEM \"about:legacy-compat\">".toList = .ok [] ⟨true⟩
    ∧ Doctype.parse "<!DOCTYPE html SYSTEM \x27about:legacy-compat\x27>".toList = .ok [] ⟨true⟩
    ∧ Doctype.parse "<!doctype HTML>".toList = .ok [] ⟨false⟩
    ∧ Doctype.parse "<!DOCTYP html>".toList = .fail
    ∧ Doctype.parse "<!DOCTYPE xml>".toList = .fail
    ∧ Doctype.parse "<!DOCTYPE html SYSTEM \"about:legacy\">".toList = .fail
    ∧ Doctype.parse "<!DOCTYPE html".toList = .fail
    ∧ format 99 ⟨80, 2⟩ "<!DOCTYPE html SYSTEM \x27about:legacy-compat\x27>".toList
      = .ok "<!DOCTYPE html SYSTEM \"about:legacy-compat\">\n".toList
    ∧ format 99 ⟨80, 2⟩ "<!DOCTYPE html>\n".toList = .ok "<!DOCTYPE html>\n".toList := by
  refine ⟨by rfl, by rfl, by rfl, by rfl, by rfl, by rfl, by rfl, by rfl, by rfl, by rfl⟩

/-- C8: attributes are parsed into the list in source order, duplicates
included, and formatting emits them in the same order without reordering
or deduplication. -/
theorem attribute_order_preserved :
    Element.parse 99 "<input type=\"text\" required>".toList
      = .ok [] (.void "input".toList
          [("type".toList, some "text".toList), ("required".toList, none)])
    ∧ format 99 ⟨80, 2⟩ "<input type=\"text\" required>".toList
      = .ok "<input type=\"text\" required/>\n".toList
    ∧ Element.parse 99 "<a x=\"1\" x=\"2\"></a>".toList
      = .ok [] (.normal "a".toList
          [("x".toList, some "1".toList), ("x".toList, some "2".toList)] [])
    ∧ format 99 ⟨80, 2⟩ "<a x=\"1\" x=\"2\"></a>".toList
      = .ok "<a x=\"1\" x=\"2\"></a>\n".toList := by
  refine ⟨by rfl, by rfl, by rfl, by rfl⟩

/-- C9: tag-name parsing is a plain `take_till`, so it succeeds on every
input including the empty run; consequently `<></>` parses as a normal
element with the empty name and `</>` is a syntactically valid end tag
with the empty name. -/
theorem parse_tag_name_total_empty_ok :
    (∀ s : Str, (parse_tag_name s).isOk = true)
    ∧ Element.parse 99 "<></>".toList = .ok [] (.normal [] [] [])
    ∧ Element.parse_end_tag "</>".toList = .ok [] [] := by
  refine ⟨fun s => rfl, by rfl, by rfl⟩

/-! ## Recovery: parsing never fails at the top level -/

/-- Rust `trim_start` is idempotent. -/
theorem trim_start_idem (s : Str) : trim_start (trim_start s) = trim_start s := by
  induction s with
  | nil => rfl
  | cons c r ih =>
    by_cases h : is_unicode_whitespace c
    · simpa [trim_start, List.dropWhile_cons, h] using ih
    · simp [trim_start, List.dropWhile_cons, h]

/-- The text scan loop only stops with a success, runs out of fuel, or
propagates a panic; it never produces a recoverable failure. -/
theorem parse_text_go_ne_fail :
    ∀ fuel s index, Node.parse_text_go fuel s index ≠ .fail := by
  intro fuel
  induction fuel with
  | zero => intro s index h; simp [Node.parse_text_go] at h
  | succ n ih =>
    intro s index h
    rw [Node.parse_text_go] at h
    cases hf : find_lt (s.drop index) with
    | none => rw [hf] at h; simp at h
    | some delta =>
      rw [hf] at h
      simp only at h
      by_cases he : (Element.parse_end_tag (s.drop (index + delta))).isOk = true
      · rw [if_pos he] at h; simp at h
      · rw [if_neg he] at h
        cases hn : Node.parse_non_text n (s.drop (index + delta)) with
        | ok r nn => rw [hn] at h; simp at h
        | fail => rw [hn] at h; exact ih _ _ h
        | more => rw [hn] at h; simp at h
        | panicked => rw [hn] at h; simp at h

/-- The `parse_many` loop never produces a recoverable failure when its
remaining input is already trimmed, which every call site guarantees. -/
theorem parse_many_go_ne_fail :
    ∀ fuel s buffer, Node.parse_many_go fuel (trim_start s) buffer ≠ .fail := by
  intro fuel
  induction fuel with
  | zero => intro s buffer h; simp [Node.parse_many_go] at h
  | succ n ih =>
    intro s buffer h
    rw [Node.parse_many_go] at h
    by_cases he : (Element.parse_end_tag (trim_start s)).isOk = true
    · rw [if_pos he] at h; simp at h
    · rw [if_neg he] at h
      by_cases hemp : (trim_start s).isEmpty = true
      · rw [if_pos hemp] at h; simp at h
      · rw [if_neg hemp] at h
        cases hn : Node.parse_non_text n (trim_start (trim_start s)) with
        | ok rest node => rw [hn] at h; exact ih _ _ h
        | more => rw [hn] at h; simp at h
        | panicked => rw [hn] at h; simp at h
        | fail =>
          rw [hn] at h
          simp only [trim_start_idem, hemp] at h
          rw [if_neg (by simp [hemp])] at h
          cases ht : Node.parse_text_go n (trim_start s) 0 with
          | ok rest p =>
            rw [ht] at h
            obtain ⟨node, next⟩ := p
            exact ih _ _ h
          | fail => exact parse_text_go_ne_fail _ _ _ ht
          | more => rw [ht] at h; simp at h
          | panicked => rw [ht] at h; simp at h

/-- C2: `Node.parse_many` never returns a recoverable parse failure (the
text fallback absorbs every failed sub-parse), so `format` never surfaces
a parse error, whatever the input; in particular it surfaces none on any
input where `Node.parse_many` produces at least one node. -/
theorem format_never_parse_error :
    ∀ (fuel : Nat) (config : Configuration) (input : Str),
      Node.parse_many fuel input ≠ .fail
      ∧ format fuel config input ≠ .error .parseFailed := by
  intro fuel config input
  have hpm : Node.parse_many fuel input ≠ .fail := by
    cases fuel with
    | zero => simp [Node.parse_many]
    | succ n =>
      rw [Node.parse_many]
      exact parse_many_go_ne_fail n input []
  refine ⟨hpm, ?_⟩
  rw [format]
  cases hp : Node.parse_many fuel input with
  | ok r nodes => simp
  | fail => exact absurd hp hpm
  | more => simp
  | panicked => simp

/-! ## Leading end tag: parsed nodes stop before it -/

/-- When the trimmed remaining input starts with a syntactically valid end
tag, the `parse_many` loop stops at once and leaves it unconsumed. -/
theorem parse_many_go_end_tag (fuel : Nat) (rem : Str) (buffer : List Node)
    (h : (Element.parse_end_tag rem).isOk = true) :
    Node.parse_many_go (fuel + 1) rem buffer = .ok rem buffer := by
  rw [Node.parse_many_go, if_pos h]

/-- C10: on any input whose trimmed head begins a syntactically valid end
tag, `format` succeeds with empty output: `Node.parse_many` returns no
nodes and the unconsumed remainder (the end tag and everything after it)
is silently discarded. -/
theorem format_discards_leading_end_tag :
    ∀ (fuel : Nat) (config : Configuration) (input : Str),
      (Element.parse_end_tag (trim_start input)).isOk = true →
      format (fuel + 2) config input = .ok [] := by
  intro fuel config input h
  have hp : Node.parse_many (fuel + 2) input = .ok (trim_start input) [] := by
    rw [Node.parse_many]
    exact parse_many_go_end_tag fuel (trim_start input) [] h
  rw [format, hp]
  rfl

/-- Witness for C10 at a concrete input. -/
theorem format_discards_leading_end_tag_witness :
    format 99 ⟨80, 2⟩ "</div><p>x</p>".toList = .ok [] :=
  format_discards_leading_end_tag 97 ⟨80, 2⟩ "</div><p>x</p>".toList (by rfl)

/-! ## Comment body normalization (C4) -/

/-- A literal tag always matches its own append. -/
theorem tagP_append (t s : Str) : tagP t (t ++ s) = .ok s t := by
  rw [tagP, if_pos (by simp [List.isPrefixOf_iff_prefix]), List.drop_left]

/-- Unfolding `take_until` when the pattern matches at the head. -/
theorem take_until_cons_pos (pat : Str) (c : Char) (r : Str)
    (h : pat.isPrefixOf (c :: r) = true) :
    take_until pat (c :: r) = some ([], c :: r) := by
  rw [take_until, if_pos h]

/-- Unfolding `take_until` when the pattern does not match at the head. -/
theorem take_until_cons_neg (pat : Str) (c : Char) (r : Str)
    (h : pat.isPrefixOf (c :: r) = false) :
    take_until pat (c :: r)
      = match take_until pat r with
        | some (pre, suf) => some (c :: pre, suf)
        | none => none := by
  rw [take_until, if_neg (by simp [h])]

/-- If `-->` does not occur in `raw`, the first occurrence of `-->` in
`raw ++ "-->" ++ rest` is exactly the appended one: the pattern cannot
straddle the boundary because its first two characters differ from its
last one. -/
theorem take_until_append_pat (rest : Str) :
    ∀ raw : Str, take_until "-->".toList raw = none →
      take_until "-->".toList (raw ++ ("-->".toList ++ rest))
        = some (raw, "-->".toList ++ rest) := by
  intro raw
  induction raw with
  | nil =>
    intro _
    exact take_until_cons_pos _ '-' ('-' :: '>' :: rest) (by simp [List.isPrefixOf])
  | cons c raw' ih =>
    intro h
    rw [take_until] at h
    by_cases hp : "-->".toList.isPrefixOf (c :: raw') = true
    · rw [if_pos hp] at h; exact absurd h (by simp)
    · rw [if_neg hp] at h
      cases hr : take_until "-->".toList raw' with
      | some pr => rw [hr] at h; exact absurd h (by simp)
      | none =>
        have hp2 : "-->".toList.isPrefixOf (c :: (raw' ++ ("-->".toList ++ rest))) = false := by
          match raw' with
          | [] => simp [List.isPrefixOf]
          | [d] => simp [List.isPrefixOf]
          | d :: e :: raw'' =>
            simp only [List.isPrefixOf, List.cons_append] at hp ⊢
            simpa using hp
        calc take_until "-->".toList ((c :: raw') ++ ("-->".toList ++ rest))
            = take_until "-->".toList (c :: (raw' ++ ("-->".toList ++ rest))) := by
              simp only [List.cons_append]
          _ = some (c :: raw', "-->".toList ++ rest) := by
              rw [take_until_cons_neg _ _ _ hp2, ih hr]

/-- A contained-character test as membership. -/
theorem contains_eq_false_iff (l : Str) (c : Char) :
    l.contains c = false ↔ c ∉ l := by
  simp [List.contains]

/-- Body normalization when the raw content decomposes around its first
and last newlines: the stored body is exactly the characters strictly
between them. -/
theorem comment_body_between (pre mid post : Str)
    (hpre : pre.contains '\n' = false) (hpost : post.contains '\n' = false)
    (hml : (trim (pre ++ '\n' :: (mid ++ '\n' :: post))).contains '\n' = true) :
    comment_body (pre ++ '\n' :: (mid ++ '\n' :: post)) = some mid := by
  have hpre' : ∀ x ∈ pre, (decide (x = '\n')) = false := by
    intro x hx
    have h := (contains_eq_false_iff pre '\n').mp hpre
    by_cases hxe : x = '\n'
    · exact absurd (hxe ▸ hx) h
    · simp [hxe]
  have hpost' : ∀ x ∈ post.reverse, (decide (x = '\n')) = false := by
    intro x hx
    have h := (contains_eq_false_iff post '\n').mp hpost
    rw [List.mem_reverse] at hx
    by_cases hxe : x = '\n'
    · exact absurd (hxe ▸ hx) h
    · simp [hxe]
  have hfind : (pre ++ '\n' :: (mid ++ '\n' :: post)).findIdx (· = '\n') = pre.length := by
    rw [List.findIdx_append, List.findIdx_eq_length_of_false hpre']
    simp [List.findIdx_cons]
  have hrev : (pre ++ '\n' :: (mid ++ '\n' :: post)).reverse.findIdx (· = '\n')
      = post.length := by
    have e : (pre ++ '\n' :: (mid ++ '\n' :: post)).reverse
        = post.reverse ++ ('\n' :: (mid.reverse ++ ('\n' :: pre.reverse))) := by
      simp
    rw [e, List.findIdx_append, List.findIdx_eq_length_of_false hpost']
    simp [List.findIdx_cons]
  have hlen : (pre ++ '\n' :: (mid ++ '\n' :: post)).length
      = pre.length + mid.length + post.length + 2 := by
    simp; omega
  have htake : (pre ++ '\n' :: (mid ++ '\n' :: post)).take (pre.length + 1 + mid.length)
      = pre ++ '\n' :: mid := by
    have hassoc : pre ++ '\n' :: (mid ++ '\n' :: post)
        = ((pre ++ '\n' :: mid) ++ ('\n' :: post) : Str) := by simp
    rw [hassoc, List.take_left' (by simp; omega)]
  have hdrop : ((pre ++ '\n' :: mid : Str)).drop (pre.length + 1) = mid := by
    have hassoc2 : pre ++ '\n' :: mid = ((pre ++ ['\n']) ++ mid : Str) := by simp
    rw [hassoc2, List.drop_left' (by simp)]
  rw [comment_body]
  simp only [hml, if_true, hfind, hrev, hlen]
  rw [if_pos (by omega)]
  rw [show pre.length + mid.length + post.length + 2 - 1 - post.length
      = pre.length + 1 + mid.length by omega]
  rw [htake, hdrop]

/-- C4: `Comment.parse` on `<!--` + raw + `-->` (first occurrence) stores
the trimmed raw content when that trimmed content has no newline; when the
trimmed content has a newline and the raw content decomposes around a
first and a last newline, it stores exactly the characters strictly
between them, with no per-line trimming; it fails when the closing
delimiter is absent. However, when the trimmed content has a newline but
the raw content holds only a single newline, the slice indices cross and
the Rust code panics instead of storing a body, as the final conjunct
shows at the failing input. -/
theorem comment_parse_normalization :
    (∀ raw rest : Str, take_until "-->".toList raw = none →
        (trim raw).contains '\n' = false →
        Comment.parse ("<!--".toList ++ (raw ++ ("-->".toList ++ rest)))
          = .ok rest ⟨trim raw⟩)
    ∧ (∀ pre mid post rest : Str,
        take_until "-->".toList (pre ++ '\n' :: (mid ++ '\n' :: post)) = none →
        pre.contains '\n' = false → post.contains '\n' = false →
        (trim (pre ++ '\n' :: (mid ++ '\n' :: post))).contains '\n' = true →
        Comment.parse ("<!--".toList ++ ((pre ++ '\n' :: (mid ++ '\n' :: post))
            ++ ("-->".toList ++ rest)))
          = .ok rest ⟨mid⟩)
    ∧ (∀ s : Str, take_until "-->".toList s = none →
        Comment.parse ("<!--".toList ++ s) = .fail)
    ∧ Comment.parse "<!--a\nb-->".toList = .panicked := by
  have hdrop3 : ∀ rest : Str, ("-->".toList ++ rest).drop 3 = rest := by
    intro rest
    exact List.drop_left' (by rfl)
  refine ⟨?_, ?_, ?_, by rfl⟩
  · intro raw rest hno hsingle
    simp only [Comment.parse, tagP_append, take_until_append_pat rest raw hno, hdrop3]
    rw [comment_body]
    simp only [hsingle, Bool.false_eq_true, if_false]
  · intro pre mid post rest hno hpre hpost hml
    simp only [Comment.parse, tagP_append, take_until_append_pat rest _ hno,
      comment_body_between pre mid post hpre hpost hml, hdrop3]
  · intro s hno
    simp only [Comment.parse, tagP_append, hno]

/-- Witness for C4: the single-line and the multi-line normalization at
concrete inputs, through the theorem itself. -/
theorem comment_parse_normalization_witness :
    Comment.parse ("<!--".toList ++ (" My comment ".toList ++ ("-->".toList ++ [])))
      = .ok [] ⟨trim " My comment ".toList⟩
    ∧ Comment.parse ("<!--".toList ++ (([] ++ '\n' :: ("x\ny".toList ++ '\n' :: []))
        ++ ("-->".toList ++ [])))
      = .ok [] ⟨"x\ny".toList⟩ :=
  ⟨comment_parse_normalization.1 " My comment ".toList [] (by rfl) (by rfl),
   comment_parse_normalization.2.1 [] "x\ny".toList [] [] (by decide) (by decide)
     (by decide) (by decide)⟩

/-! ## Text runs never contain an end tag (C6) -/

/-- An end tag never parses from the empty input. -/
theorem parse_end_tag_nil : Element.parse_end_tag [] = .fail := by rfl

/-- An end tag never parses from input that does not start with `<`. -/
theorem parse_end_tag_cons_ne (c : Char) (r : Str) (h : c ≠ '<') :
    Element.parse_end_tag (c :: r) = .fail := by
  simp [Element.parse_end_tag, charP, h, PResult.bind]

/-- `dropWhile` over an append when the left part is not exhausted. -/
theorem dropWhile_append_left (p : Char → Bool) (u w : Str) (h : u.dropWhile p ≠ []) :
    (u ++ w).dropWhile p = u.dropWhile p ++ w := by
  rw [List.dropWhile_append, if_neg (by simpa using h)]

/-- `takeWhile` over an append when the left part is not exhausted. -/
theorem takeWhile_append_left (p : Char → Bool) (u w : Str) (h : u.dropWhile p ≠ []) :
    (u ++ w).takeWhile p = u.takeWhile p := by
  rw [List.takeWhile_append, if_neg ?_]
  intro hlen
  apply h
  have hsum := congrArg List.length (List.takeWhile_append_dropWhile (p := p) (l := u))
  rw [List.length_append, hlen] at hsum
  have : (u.dropWhile p).length = 0 := by omega
  exact List.length_eq_zero.mp this

/-- Computation rule: `charP` succeeds on its own character. -/
theorem charP_cons_self (c : Char) (r : Str) : charP c (c :: r) = .ok r () := by
  simp [charP]

/-- A successful end-tag parse is preserved by appending input: every
character the parse inspected lies in the consumed prefix. -/
theorem parse_end_tag_extend (w : Str) :
    ∀ u r n, Element.parse_end_tag u = .ok r n →
      Element.parse_end_tag (u ++ w) = .ok (r ++ w) n := by
  intro u r n h
  match u with
  | [] => exact absurd h (by simp [Element.parse_end_tag, charP, PResult.bind])
  | [c] =>
    exact absurd h (by
      by_cases hc : c = '<' <;>
        simp [Element.parse_end_tag, charP, hc, PResult.bind])
  | c :: c2 :: u2 =>
    by_cases hc : c = '<'
    · by_cases hc2 : c2 = '/'
      · subst hc; subst hc2
        simp only [Element.parse_end_tag, charP_cons_self, PResult.bind,
          parse_tag_name, take_whileP] at h
        simp only [List.cons_append, Element.parse_end_tag, charP_cons_self, PResult.bind,
          parse_tag_name, take_whileP]
        cases hgt : (u2.dropWhile fun c => !(is_ascii_whitespace c || c = '/' || c = '>'))
            |>.dropWhile is_ascii_whitespace with
        | nil => rw [hgt] at h; simp [charP, PResult.bind] at h
        | cons g gs =>
          rw [hgt] at h
          by_cases hg : g = '>'
          · subst hg
            rw [charP_cons_self] at h
            simp only [PResult.bind] at h
            have hd1 : (u2.dropWhile fun c =>
                !(is_ascii_whitespace c || c = '/' || c = '>')) ≠ [] := by
              intro he
              rw [he] at hgt
              simp at hgt
            rw [dropWhile_append_left _ u2 w hd1, takeWhile_append_left _ u2 w hd1,
              dropWhile_append_left _ _ w (by rw [hgt]; simp), hgt, List.cons_append,
              charP_cons_self]
            simp only [PResult.bind]
            cases h
            rfl
          · rw [show charP '>' (g :: gs) = .fail from by simp [charP, hg]] at h
            simp [PResult.bind] at h
      · exact absurd h (by simp [Element.parse_end_tag, charP, hc, hc2, PResult.bind])
    · exact absurd h (by simp [Element.parse_end_tag, charP, hc, PResult.bind])

/-- `trim_end` splits off a suffix of the original string. -/
theorem trim_end_decomp (s : Str) : ∃ w, s = trim_end s ++ w := by
  refine ⟨(s.reverse.takeWhile is_unicode_whitespace).reverse, ?_⟩
  rw [trim_end, ← List.reverse_append, List.takeWhile_append_dropWhile, List.reverse_reverse]

/-- The trimmed prefix is no longer than the original. -/
theorem trim_end_length_le (s : Str) : (trim_end s).length ≤ s.length := by
  obtain ⟨w, hw⟩ := trim_end_decomp s
  conv_rhs => rw [hw]
  simp

/-- If no position strictly inside the first `k` characters of `s` starts
a valid end tag, then no position of the stored text run (the trimmed
`k`-prefix) does either: any such parse would extend to a parse inside
`s`. -/
theorem text_slice_no_end_tag (s : Str) (k : Nat)
    (hk : ∀ j, j < k → (Element.parse_end_tag (s.drop j)).isOk = false) :
    ∀ j, (Element.parse_end_tag ((trim_end (s.take k)).drop j)).isOk = false := by
  intro j
  by_cases hj : j < (trim_end (s.take k)).length
  · obtain ⟨w1, hw1⟩ := trim_end_decomp (s.take k)
    have hts : s = trim_end (s.take k) ++ (w1 ++ s.drop k) := by
      rw [← List.append_assoc, ← hw1, List.take_append_drop]
    have hdropj : s.drop j = (trim_end (s.take k)).drop j ++ (w1 ++ s.drop k) := by
      conv_lhs => rw [hts]
      exact List.drop_append_of_le_length (Nat.le_of_lt hj)
    have hjk : j < k := by
      have h1 : (trim_end (s.take k)).length ≤ (s.take k).length := trim_end_length_le _
      have h2 : (s.take k).length ≤ k := by simp
      omega
    cases hp : Element.parse_end_tag ((trim_end (s.take k)).drop j) with
    | ok r n =>
      have := parse_end_tag_extend (w1 ++ s.drop k) _ _ _ hp
      rw [← hdropj] at this
      have hok : (Element.parse_end_tag (s.drop j)).isOk = true := by
        rw [this]; rfl
      rw [hk j hjk] at hok
      exact absurd hok (by simp)
    | fail => rfl
    | more => rfl
    | panicked => rfl
  · rw [List.drop_eq_nil_of_le (Nat.le_of_not_lt hj), parse_end_tag_nil]
    rfl

/-- An end-tag parse fails at any position whose character is not `<`. -/
theorem parse_end_tag_drop_false (l : Str) (m : Nat) (hm : m < l.length)
    (hne : l[m] ≠ '<') : (Element.parse_end_tag (l.drop m)).isOk = false := by
  rw [List.drop_eq_getElem_cons hm, parse_end_tag_cons_ne _ _ hne]
  rfl

/-- `parse_non_text` only produces comment, doctype or element nodes. -/
theorem parse_non_text_not_text :
    ∀ fuel s rest n, Node.parse_non_text fuel s = .ok rest n → n.isText = false := by
  intro fuel s rest n h
  cases fuel with
  | zero => simp [Node.parse_non_text] at h
  | succ fu =>
    rw [Node.parse_non_text] at h
    cases h1 : Comment.parse s with
    | ok r c => rw [h1] at h; cases h; rfl
    | more => rw [h1] at h; cases h
    | panicked => rw [h1] at h; cases h
    | fail =>
      rw [h1] at h
      cases h2 : Doctype.parse s with
      | ok r d => rw [h2] at h; cases h; rfl
      | more => rw [h2] at h; cases h
      | panicked => rw [h2] at h; cases h
      | fail =>
        rw [h2] at h
        cases h3 : Element.parse fu s with
        | ok r e => rw [h3] at h; cases h; rfl
        | more => rw [h3] at h; cases h
        | panicked => rw [h3] at h; cases h
        | fail => rw [h3] at h; cases h

/-- The text scan only ever stops with a text node whose body contains no
position at which a valid end tag parses, and whose optional companion
node is not a text node: every `<` candidate the scan passed over was
checked, and the stored run is a prefix of the checked region. -/
theorem parse_text_go_no_end_tag :
    ∀ fuel s index rest node onode,
      (∀ j, j < index → (Element.parse_end_tag (s.drop j)).isOk = false) →
      Node.parse_text_go fuel s index = .ok rest (node, onode) →
      (∃ t, node = Node.text t ∧ ∀ j, (Element.parse_end_tag (t.drop j)).isOk = false)
      ∧ (∀ nx, onode = some nx → nx.isText = false) := by
  intro fuel
  induction fuel with
  | zero => intro s index rest node onode _ h; simp [Node.parse_text_go] at h
  | succ fu ih =>
    intro s index rest node onode hinv h
    rw [Node.parse_text_go] at h
    cases hf : find_lt (s.drop index) with
    | none =>
      rw [hf] at h
      simp only at h
      rw [find_lt] at hf
      have hall := List.findIdx?_eq_none_iff.mp hf
      have hk : ∀ j, j < s.length → (Element.parse_end_tag (s.drop j)).isOk = false := by
        intro j hj
        by_cases hji : j < index
        · exact hinv j hji
        · have hm : j - index < (s.drop index).length := by
            rw [List.length_drop]; omega
          have hne : (s.drop index)[j - index] ≠ '<' := by
            have := hall ((s.drop index)[j - index]) (List.getElem_mem hm)
            simpa using this
          have := parse_end_tag_drop_false (s.drop index) (j - index) hm hne
          rwa [List.drop_drop, show index + (j - index) = j by omega] at this
      cases h
      refine ⟨⟨trim_end s, rfl, ?_⟩, by intro nx hnx; cases hnx⟩
      have := text_slice_no_end_tag s s.length hk
      rwa [List.take_length] at this
    | some delta =>
      rw [hf] at h
      simp only at h
      rw [find_lt] at hf
      obtain ⟨hdlt, hdc, hdprev⟩ := List.findIdx?_eq_some_iff_getElem.mp hf
      have hinv' : ∀ j, j < index + delta →
          (Element.parse_end_tag (s.drop j)).isOk = false := by
        intro j hj
        by_cases hji : j < index
        · exact hinv j hji
        · have hm : j - index < (s.drop index).length := by omega
          have hne : (s.drop index)[j - index] ≠ '<' := by
            have := hdprev (j - index) (by omega)
            simpa using this
          have := parse_end_tag_drop_false (s.drop index) (j - index) hm hne
          rwa [List.drop_drop, show index + (j - index) = j by omega] at this
      by_cases he : (Element.parse_end_tag (s.drop (index + delta))).isOk = true
      · rw [if_pos he] at h
        cases h
        exact ⟨⟨_, rfl, text_slice_no_end_tag s (index + delta) hinv'⟩,
          by intro nx hnx; cases hnx⟩
      · rw [if_neg he] at h
        cases hn : Node.parse_non_text fu (s.drop (index + delta)) with
        | ok rem nx =>
          rw [hn] at h
          cases h
          exact ⟨⟨_, rfl, text_slice_no_end_tag s (index + delta) hinv'⟩,
            by
              intro nx' hnx'
              cases hnx'
              exact parse_non_text_not_text fu _ _ _ hn⟩
        | more => rw [hn] at h; cases h
        | panicked => rw [hn] at h; cases h
        | fail =>
          rw [hn] at h
          refine ih s (index + delta + 1) rest node onode ?_ h
          intro j hj
          by_cases hji : j < index + delta
          · exact hinv' j hji
          · have : j = index + delta := by omega
            subst this
            simpa using he

/-- Invariant of the `parse_many` loop: it only stops with the remainder
empty or at a position where a valid end tag begins, and every text node
it accumulates contains no position at which a valid end tag parses. -/
theorem parse_many_go_spec :
    ∀ fuel rem buffer r ns,
      Node.parse_many_go fuel rem buffer = .ok r ns →
      (∀ t, Node.text t ∈ buffer → ∀ j, (Element.parse_end_tag (t.drop j)).isOk = false) →
      (r = [] ∨ (Element.parse_end_tag r).isOk = true)
        ∧ ∀ t, Node.text t ∈ ns → ∀ j, (Element.parse_end_tag (t.drop j)).isOk = false := by
  intro fuel
  induction fuel with
  | zero => intro rem buffer r ns h _; simp [Node.parse_many_go] at h
  | succ fu ih =>
    intro rem buffer r ns h hbuf
    rw [Node.parse_many_go] at h
    by_cases he : (Element.parse_end_tag rem).isOk = true
    · rw [if_pos he] at h
      cases h
      exact ⟨Or.inr he, hbuf⟩
    · rw [if_neg he] at h
      by_cases hemp : rem.isEmpty = true
      · rw [if_pos hemp] at h
        cases h
        exact ⟨Or.inl rfl, hbuf⟩
      · rw [if_neg hemp] at h
        cases hn : Node.parse_non_text fu (trim_start rem) with
        | ok rest node =>
          rw [hn] at h
          refine ih _ _ _ _ h ?_
          intro t ht j
          rcases List.mem_append.mp ht with hl | hr2
          · exact hbuf t hl j
          · have hnt := parse_non_text_not_text fu _ _ _ hn
            have heq : Node.text t = node := by simpa using hr2
            rw [← heq] at hnt
            simp [Node.isText] at hnt
        | more => rw [hn] at h; cases h
        | panicked => rw [hn] at h; cases h
        | fail =>
          rw [hn] at h
          simp only at h
          by_cases ht0 : (trim_start rem).isEmpty = true
          · rw [if_pos ht0] at h; cases h
          · rw [if_neg ht0] at h
            cases htx : Node.parse_text_go fu (trim_start rem) 0 with
            | ok rest pr =>
              rw [htx] at h
              obtain ⟨node, next⟩ := pr
              simp only at h
              obtain ⟨⟨t0, ht0eq, ht0p⟩, hnext⟩ :=
                parse_text_go_no_end_tag fu (trim_start rem) 0 rest node next
                  (by intro j hj; omega) htx
              refine ih _ _ _ _ h ?_
              intro t ht j
              rcases List.mem_append.mp ht with hl2 | hr2
              · rcases List.mem_append.mp hl2 with hl3 | hr3
                · exact hbuf t hl3 j
                · have heq : Node.text t = node := by simpa using hr3
                  rw [← heq] at ht0eq
                  cases ht0eq
                  exact ht0p j
              · cases hnx : next with
                | none => rw [hnx] at hr2; simp at hr2
                | some nx =>
                  rw [hnx] at hr2
                  have heq : Node.text t = nx := by simpa using hr2
                  have hnt := hnext nx hnx
                  rw [← heq] at hnt
                  simp [Node.isText] at hnt
            | more => rw [htx] at h; cases h
            | panicked => rw [htx] at h; cases h
            | fail => rw [htx] at h; cases h

/-- The loop invariant lifted to `Node.parse_many`. -/
theorem parse_many_spec (fuel : Nat) (s r : Str) (ns : List Node)
    (h : Node.parse_many fuel s = .ok r ns) :
    (r = [] ∨ (Element.parse_end_tag r).isOk = true)
      ∧ ∀ t, Node.text t ∈ ns → ∀ j, (Element.parse_end_tag (t.drop j)).isOk = false := by
  cases fuel with
  | zero => simp [Node.parse_many] at h
  | succ fu =>
    rw [Node.parse_many] at h
    exact parse_many_go_spec fu (trim_start s) [] r ns h (by intro t ht; simp at ht)

/-- The content of a parsed normal element is the output of a
`Node.parse_many` call on the input after its start tag. -/
theorem element_parse_normal_inv :
    ∀ fuel s r name attrs content,
      Element.parse fuel s = .ok r (Element.normal name attrs content) →
      ∃ fu s6 s7, Node.parse_many fu s6 = .ok s7 content := by
  intro fuel s r name attrs content h
  cases fuel with
  | zero => simp [Element.parse] at h
  | succ fu =>
    rw [Element.parse] at h
    cases h1 : charP '<' s with
    | fail => rw [h1] at h; simp [PResult.bind] at h
    | more => rw [h1] at h; simp [PResult.bind] at h
    | panicked => rw [h1] at h; simp [PResult.bind] at h
    | ok s1 u =>
      rw [h1] at h
      simp only [PResult.bind, parse_tag_name, take_whileP] at h
      cases h2 : many0_attributes
          ((s1.dropWhile fun c => !(is_ascii_whitespace c || c = '/' || c = '>')).length + 1)
          (s1.dropWhile fun c => !(is_ascii_whitespace c || c = '/' || c = '>')) with
      | fail => rw [h2] at h; simp [PResult.bind] at h
      | more => rw [h2] at h; simp [PResult.bind] at h
      | panicked => rw [h2] at h; simp [PResult.bind] at h
      | ok s3 attrs2 =>
        rw [h2] at h
        simp only [PResult.bind] at h
        cases hsol : (match charP '/' (s3.dropWhile is_ascii_whitespace) with
            | PResult.ok r _ => some r
            | _ => none) with
        | some s5 =>
          rw [hsol] at h
          simp only [Option.getD, Option.isSome] at h
          cases h4 : charP '>' s5 with
          | fail => rw [h4] at h; simp [PResult.bind] at h
          | more => rw [h4] at h; simp [PResult.bind] at h
          | panicked => rw [h4] at h; simp [PResult.bind] at h
          | ok s6 u6 =>
            rw [h4] at h
            simp only [PResult.bind] at h
            rw [if_pos (by simp)] at h
            cases h
        | none =>
          rw [hsol] at h
          simp only [Option.getD, Option.isSome] at h
          cases h4 : charP '>' (s3.dropWhile is_ascii_whitespace) with
          | fail => rw [h4] at h; simp [PResult.bind] at h
          | more => rw [h4] at h; simp [PResult.bind] at h
          | panicked => rw [h4] at h; simp [PResult.bind] at h
          | ok s6 u6 =>
            rw [h4] at h
            simp only [PResult.bind] at h
            by_cases hv : void_names.contains
                ((s1.takeWhile fun c => !(is_ascii_whitespace c || c = '/' || c = '>')).map
                  asciiLower) = true
            · rw [if_pos (by rw [Bool.or_false]; exact hv)] at h
              cases h
            · rw [if_neg (by simpa only [Bool.or_false] using hv)] at h
              cases h5 : Node.parse_many fu s6 with
              | fail => rw [h5] at h; simp [PResult.bind] at h
              | more => rw [h5] at h; simp [PResult.bind] at h
              | panicked => rw [h5] at h; simp [PResult.bind] at h
              | ok s7 content2 =>
                rw [h5] at h
                simp only [PResult.bind] at h
                cases h6 : Element.parse_end_tag s7 with
                | fail => rw [h6] at h; simp [PResult.bind] at h
                | more => rw [h6] at h; simp [PResult.bind] at h
                | panicked => rw [h6] at h; simp [PResult.bind] at h
                | ok s8 en =>
                  rw [h6] at h
                  simp only [PResult.bind] at h
                  by_cases hname :
                      (s1.takeWhile fun c => !(is_ascii_whitespace c || c = '/' || c = '>')) = en
                  · rw [if_pos hname] at h
                    have : content2 = content := by cases h; rfl
                    exact ⟨fu, s6, s7, this ▸ h5⟩
                  · rw [if_neg hname] at h; simp at h

/-- C6: the node-sequence parser stops at the first position where a
syntactically valid end tag begins and leaves it unconsumed: an end tag at
the trimmed head stops it immediately with no nodes; whenever it succeeds,
the remainder is empty or begins with a valid end tag; and no text node it
produces, in particular none in the content of a parsed normal element,
contains a position at which a valid end tag parses. -/
theorem parse_many_stops_at_first_end_tag :
    (∀ fuel (s : Str), (Element.parse_end_tag (trim_start s)).isOk = true →
        Node.parse_many (fuel + 2) s = .ok (trim_start s) [])
    ∧ (∀ fuel (s r : Str) (ns : List Node), Node.parse_many fuel s = .ok r ns →
        (r = [] ∨ (Element.parse_end_tag r).isOk = true)
          ∧ ∀ t, Node.text t ∈ ns →
              ∀ j, (Element.parse_end_tag (t.drop j)).isOk = false)
    ∧ (∀ fuel (s r : Str) (name : Str) (attrs : List (Str × Option Str))
          (content : List Node),
        Element.parse fuel s = .ok r (Element.normal name attrs content) →
        ∀ t, Node.text t ∈ content →
            ∀ j, (Element.parse_end_tag (t.drop j)).isOk = false) := by
  refine ⟨?_, ?_, ?_⟩
  · intro fuel s h
    rw [Node.parse_many]
    exact parse_many_go_end_tag fuel (trim_start s) [] h
  · intro fuel s r ns h
    exact parse_many_spec fuel s r ns h
  · intro fuel s r name attrs content h t ht j
    obtain ⟨fu, s6, s7, hpm⟩ := element_parse_normal_inv fuel s r name attrs content h
    exact (parse_many_spec fu s6 s7 content hpm).2 t ht j

/-- Witness for C6: the parse of `a</b>` stops at the end tag, leaving it
unconsumed, and the stored text run contains no end tag. -/
theorem parse_many_stops_at_first_end_tag_witness :
    (("</b>".toList : Str) = [] ∨ (Element.parse_end_tag "</b>".toList).isOk = true)
      ∧ ∀ t, Node.text t ∈ [Node.text "a".toList] →
          ∀ j, (Element.parse_end_tag (t.drop j)).isOk = false :=
  parse_many_stops_at_first_end_tag.2.1 9 "a</b>".toList "</b>".toList
    [Node.text "a".toList] (by rfl)

end Hast
